import Mathlib

/-!
Verification of the Nyaya-Setu document discovery/acquisition pipeline.

The development shallowly embeds the two Python sources:
  - url-extractor/main.py   (class WebCrawler: breadth-first in-domain link discovery)
  - research/PdfExtractor.py (class PDFScraper: resumable, content-deduplicated PDF acquisition)

External capabilities (HTTP transport, HTML anchor extraction, URL path
handling) are modelled as function-valued parameters, exactly at the
boundaries the code calls into `requests`, `BeautifulSoup`, `urllib.parse`
and `os.path`.  Python string primitives used by the code
(str.endswith, str.lower, str.replace, file readlines/strip) are modelled
over `String.data` / `List Char` with Python's documented semantics.
-/

namespace NyayaSetu

/-! ### Python string primitives -/

/-- Python `s.endswith(suf)`: `suf` is a suffix of `s`. -/
def pyEndsWith (s suf : String) : Bool :=
  suf.data.isSuffixOf s.data

/-- Python `s.lower()` restricted to ASCII letters (the only case the
sources exercise). -/
def pyLower (s : String) : String :=
  ⟨s.data.map Char.toLower⟩

/-- Python `s.replace('.pdf', '')` on the character list: removes every
(non-overlapping, left-to-right) occurrence of `.pdf`. -/
def removePdfChars : List Char → List Char
  | '.' :: 'p' :: 'd' :: 'f' :: rest => removePdfChars rest
  | c :: rest => c :: removePdfChars rest
  | [] => []

/-- Python `s.replace('.pdf', '')`. -/
def pyRemovePdf (s : String) : String :=
  ⟨removePdfChars s.data⟩

/-! ### Injectivity of the decimal rendering `Nat.repr`

The filename-collision loop in PdfExtractor.py appends `_1`, `_2`, ... to a
stem until the name is unused; that the loop ever finds an unused name
rests on distinct counters rendering to distinct strings. -/

theorem toDigitsCore_append (b : Nat) :
    ∀ (f n : Nat) (ds : List Char),
      Nat.toDigitsCore b f n ds = Nat.toDigitsCore b f n [] ++ ds := by
  intro f
  induction f with
  | zero => intro n ds; rfl
  | succ f ih =>
    intro n ds
    simp only [Nat.toDigitsCore]
    split
    · rfl
    · rw [ih (n / b) (Nat.digitChar (n % b) :: ds), ih (n / b) [Nat.digitChar (n % b)],
        List.append_assoc]
      rfl

theorem toDigitsCore_fuel (b : Nat) (hb : 2 ≤ b) :
    ∀ (n f₁ f₂ : Nat), n < f₁ → n < f₂ → ∀ ds : List Char,
      Nat.toDigitsCore b f₁ n ds = Nat.toDigitsCore b f₂ n ds := by
  intro n
  induction n using Nat.strong_induction_on with
  | _ n ihn =>
    intro f₁ f₂ h₁ h₂ ds
    match f₁, h₁, f₂, h₂ with
    | g₁ + 1, h₁, g₂ + 1, h₂ =>
      simp only [Nat.toDigitsCore]
      split
      · rfl
      · rename_i hnz
        have hn1 : 1 ≤ n := by
          by_contra hc
          push_neg at hc
          interval_cases n
          simp at hnz
        have hdiv : n / b < n := Nat.div_lt_self hn1 (by omega)
        exact ihn (n / b) hdiv g₁ g₂ (by omega) (by omega) _

theorem toDigits_eq (b : Nat) (hb : 2 ≤ b) (n : Nat) :
    Nat.toDigits b n =
      if n < b then [Nat.digitChar n]
      else Nat.toDigits b (n / b) ++ [Nat.digitChar (n % b)] := by
  show Nat.toDigitsCore b (n + 1) n [] = _
  simp only [Nat.toDigitsCore]
  have hb0 : 0 < b := by omega
  split
  · rename_i hz
    have hlt : n < b := by
      rcases Nat.lt_or_ge n b with h | h
      · exact h
      · exfalso
        have := Nat.div_le_div_right (c := b) h
        simp [Nat.div_self hb0] at this
        omega
    rw [if_pos hlt, Nat.mod_eq_of_lt hlt]
  · rename_i hz
    have hge : b ≤ n := by
      by_contra hc
      push_neg at hc
      exact hz (Nat.div_eq_of_lt hc)
    rw [if_neg (by omega)]
    rw [toDigitsCore_append b n (n / b) [Nat.digitChar (n % b)]]
    have hdiv : n / b < n := Nat.div_lt_self (by omega) (by omega)
    show Nat.toDigitsCore b n (n / b) [] ++ _ = Nat.toDigitsCore b (n / b + 1) (n / b) [] ++ _
    rw [toDigitsCore_fuel b hb (n / b) n (n / b + 1) (by omega) (by omega)]

theorem toDigits_ne_nil (b : Nat) (hb : 2 ≤ b) (n : Nat) : Nat.toDigits b n ≠ [] := by
  rw [toDigits_eq b hb n]
  split <;> simp

theorem digitChar_inj_lt_ten :
    ∀ m < 10, ∀ n < 10, Nat.digitChar m = Nat.digitChar n → m = n := by decide

theorem toDigits_ten_injective :
    ∀ m n : Nat, Nat.toDigits 10 m = Nat.toDigits 10 n → m = n := by
  intro m
  induction m using Nat.strong_induction_on with
  | _ m ihm =>
    intro n h
    rw [toDigits_eq 10 (by omega) m, toDigits_eq 10 (by omega) n] at h
    by_cases hm : m < 10 <;> by_cases hn : n < 10
    · rw [if_pos hm, if_pos hn] at h
      exact digitChar_inj_lt_ten m hm n hn (List.cons.injEq .. ▸ h).1
    · rw [if_pos hm, if_neg hn] at h
      have hlen := congrArg List.length h
      rw [List.length_append] at hlen
      simp only [List.length_cons, List.length_nil] at hlen
      have hz : (Nat.toDigits 10 (n / 10)).length = 0 := by omega
      exact absurd (List.length_eq_zero.mp hz) (toDigits_ne_nil 10 (by omega) (n / 10))
    · rw [if_neg hm, if_pos hn] at h
      have hlen := congrArg List.length h
      rw [List.length_append] at hlen
      simp only [List.length_cons, List.length_nil] at hlen
      have hz : (Nat.toDigits 10 (m / 10)).length = 0 := by omega
      exact absurd (List.length_eq_zero.mp hz) (toDigits_ne_nil 10 (by omega) (m / 10))
    · rw [if_neg hm, if_neg hn] at h
      have h2 := List.append_inj' h rfl
      have hdiv : m / 10 = n / 10 :=
        ihm (m / 10) (Nat.div_lt_self (by omega) (by omega)) (n / 10) h2.1
      have hmod : m % 10 = n % 10 := by
        have := (List.cons.injEq .. ▸ h2.2).1
        exact digitChar_inj_lt_ten (m % 10) (Nat.mod_lt m (by omega)) (n % 10)
          (Nat.mod_lt n (by omega)) this
      omega

theorem natRepr_injective : ∀ m n : Nat, Nat.repr m = Nat.repr n → m = n := by
  intro m n h
  have : Nat.toDigits 10 m = Nat.toDigits 10 n := congrArg String.data h
  exact toDigits_ten_injective m n this

/-! ### WebCrawler (url-extractor/main.py)

A URL is carried in parsed form (the result of urllib's urlparse on an
absolute URL string); `urlString` renders the string the Python code
stores in its sets and compares with.  The fetch-and-parse capability
(requests.get + BeautifulSoup + urljoin) is a parameter: for a URL string
it yields either `none` (a RequestException, including non-2xx raised by
raise_for_status) or the list of absolute anchor targets in document
order. -/

structure Url where
  scheme : String
  netloc : String
  path : String
  query : String
  frag : String
deriving DecidableEq

/-- Rendering of a parsed URL back to the string form the crawler stores. -/
def urlString (u : Url) : String :=
  u.scheme ++ "://" ++ u.netloc ++ u.path
    ++ (if u.query = "" then "" else "?" ++ u.query)
    ++ (if u.frag = "" then "" else "#" ++ u.frag)

/-- Extension filter list from WebCrawler.is_valid_url. -/
def extensions : List String :=
  [".pdf", ".jpg", ".png", ".gif", ".css", ".js"]

/-- WebCrawler.is_valid_url: host equals the fixed domain, scheme is
http/https, and the URL STRING (not its path) does not end in a filtered
extension. -/
def is_valid_url (domain : String) (u : Url) : Bool :=
  (u.netloc == domain) && (u.scheme == "http" || u.scheme == "https")
    && !(extensions.any (fun e => pyEndsWith (urlString u) e))

/-- Mutable state of a WebCrawler instance: visited_urls and all_urls.
Python sets are modelled as duplicate-free lists (inserts are guarded by
membership, matching the code's checks). -/
structure CrawlState where
  visited_urls : List String
  all_urls : List String
deriving DecidableEq

/-- Fetch-and-extract capability: none models a RequestException. -/
abbrev FetchEnv := String → Option (List Url)

/-- Body of the for-loop over anchors in WebCrawler.extract_urls:
accumulates page_urls and adds eligible links to all_urls. -/
def add_links (domain : String) (acc : List String × CrawlState) :
    List Url → List String × CrawlState
  | [] => acc
  | l :: ls =>
    let s := urlString l
    if is_valid_url domain l && !(acc.2.all_urls.contains s) then
      add_links domain (acc.1 ++ [s], ⟨acc.2.visited_urls, acc.2.all_urls ++ [s]⟩) ls
    else
      add_links domain acc ls

/-- WebCrawler.extract_urls, returning the page_urls set and the updated
crawler state. -/
def extract_urls (env : FetchEnv) (domain : String) (max_depth max_pages : Nat)
    (st : CrawlState) (url : String) (depth : Nat) : List String × CrawlState :=
  if url ∈ st.visited_urls ∨ max_depth < depth ∨ max_pages ≤ st.visited_urls.length then
    ([], st)
  else
    match env url with
    | none => ([], st)
    | some links => add_links domain ([], ⟨st.visited_urls ++ [url], st.all_urls⟩) links

/-- One depth level of WebCrawler.crawl: expand every frontier URL,
collecting next_urls.  The thread pool is linearized (the claims hold of
every linearization of the per-URL critical sections). -/
def crawl_level (env : FetchEnv) (domain : String) (max_depth max_pages depth : Nat)
    (acc : List String × CrawlState) : List String → List String × CrawlState
  | [] => acc
  | u :: us =>
    let r := extract_urls env domain max_depth max_pages acc.2 u depth
    crawl_level env domain max_depth max_pages depth (acc.1 ++ r.1, r.2) us

/-- The depth loop of WebCrawler.crawl (for depth in range(max_depth),
breaking when the next frontier is empty).  Returns the final state and
the number of levels actually expanded. -/
def crawl_go (env : FetchEnv) (domain : String) (max_depth max_pages : Nat) :
    Nat → Nat → List String → CrawlState → CrawlState × Nat
  | 0, _, _, st => (st, 0)
  | fuel + 1, depth, frontier, st =>
    let r := crawl_level env domain max_depth max_pages depth ([], st) frontier
    if r.1.isEmpty then (r.2, 1)
    else
      let rest := crawl_go env domain max_depth max_pages fuel (depth + 1) r.1 r.2
      (rest.1, rest.2 + 1)

/-- WebCrawler.crawl from a parsed base URL: the fixed domain is the base
URL's netloc, the initial frontier is the base URL string, both sets start
empty. -/
def crawl (env : FetchEnv) (base : Url) (max_depth max_pages : Nat) : CrawlState × Nat :=
  crawl_go env base.netloc max_depth max_pages max_depth 0 [urlString base] ⟨[], []⟩

/-- The lines written to the output file: sorted(self.all_urls). -/
def output_lines (st : CrawlState) : List String :=
  st.all_urls.insertionSort (· ≤ ·)

/-! Concrete scenario constants used by counterexamples and witnesses. -/

/-- Base URL http://example.com/ in parsed form. -/
def base0 : Url := ⟨"http", "example.com", "/", "", ""⟩

/-- Fetch environment in which the start page has no anchors at all and
every other URL fails to fetch. -/
def env0 : FetchEnv := fun s => if s = "http://example.com/" then some [] else none

example : urlString base0 = "http://example.com/" := by decide

example : crawl env0 base0 10 500 = (⟨["http://example.com/"], []⟩, 1) := by decide

/-! ### Invariant lemmas about the traversal -/

theorem add_links_visited (domain : String) (acc : List String × CrawlState)
    (ls : List Url) :
    (add_links domain acc ls).2.visited_urls = acc.2.visited_urls := by
  induction ls generalizing acc with
  | nil => rfl
  | cons l ls ih =>
    simp only [add_links]
    split
    · exact ih _
    · exact ih _

theorem add_links_all_mono (domain : String) (acc : List String × CrawlState)
    (ls : List Url) :
    acc.2.all_urls ⊆ (add_links domain acc ls).2.all_urls := by
  induction ls generalizing acc with
  | nil => exact fun x hx => hx
  | cons l ls ih =>
    simp only [add_links]
    split
    · intro x hx
      exact ih _ (by simp [hx])
    · exact ih _

theorem add_links_all_new (domain : String) (acc : List String × CrawlState)
    (ls : List Url) :
    ∀ s ∈ (add_links domain acc ls).2.all_urls,
      s ∈ acc.2.all_urls ∨ ∃ l, is_valid_url domain l = true ∧ s = urlString l := by
  induction ls generalizing acc with
  | nil => exact fun s hs => Or.inl hs
  | cons l ls ih =>
    simp only [add_links]
    split
    · rename_i hcond
      intro s hs
      rcases ih _ s hs with h | h
      · simp only [List.mem_append, List.mem_singleton] at h
        rcases h with h | h
        · exact Or.inl h
        · refine Or.inr ⟨l, ?_, h⟩
          simpa using (Bool.and_eq_true _ _ ▸ hcond).1
      · exact Or.inr h
    · exact ih _

theorem add_links_all_nodup (domain : String) (acc : List String × CrawlState)
    (ls : List Url) (h : acc.2.all_urls.Nodup) :
    (add_links domain acc ls).2.all_urls.Nodup := by
  induction ls generalizing acc with
  | nil => exact h
  | cons l ls ih =>
    simp only [add_links]
    split
    · rename_i hcond
      refine ih (acc.1 ++ [urlString l], ⟨acc.2.visited_urls, acc.2.all_urls ++ [urlString l]⟩) ?_
      have hnm : urlString l ∉ acc.2.all_urls := by
        have := (Bool.and_eq_true _ _ ▸ hcond).2
        simpa using this
      simpa [List.nodup_append] using ⟨h, hnm⟩
    · exact ih _ h

theorem add_links_page (domain : String) (acc : List String × CrawlState)
    (ls : List Url) :
    ∀ s ∈ (add_links domain acc ls).1,
      s ∈ acc.1 ∨ s ∈ (add_links domain acc ls).2.all_urls := by
  induction ls generalizing acc with
  | nil => exact fun s hs => Or.inl hs
  | cons l ls ih =>
    simp only [add_links]
    split
    · intro s hs
      rcases ih _ s hs with h | h
      · simp only [List.mem_append, List.mem_singleton] at h
        rcases h with h | h
        · exact Or.inl h
        · refine Or.inr ?_
          refine add_links_all_mono domain _ ls ?_
          simp [h]
      · exact Or.inr h
    · exact ih _

theorem extract_urls_visited_new (env : FetchEnv) (domain : String)
    (max_depth max_pages : Nat) (st : CrawlState) (url : String) (depth : Nat) :
    ∀ v ∈ (extract_urls env domain max_depth max_pages st url depth).2.visited_urls,
      v ∈ st.visited_urls ∨ v = url := by
  simp only [extract_urls]
  split
  · exact fun v hv => Or.inl hv
  · cases h : env url with
    | none => simp only [h]; exact fun v hv => Or.inl hv
    | some links =>
      simp only [h]
      intro v hv
      rw [add_links_visited] at hv
      simpa using hv

theorem extract_urls_all_mono (env : FetchEnv) (domain : String)
    (max_depth max_pages : Nat) (st : CrawlState) (url : String) (depth : Nat) :
    st.all_urls ⊆ (extract_urls env domain max_depth max_pages st url depth).2.all_urls := by
  simp only [extract_urls]
  split
  · exact fun x hx => hx
  · cases h : env url with
    | none => simp only [h]; exact fun x hx => hx
    | some links =>
      simp only [h]
      exact add_links_all_mono domain ([], ⟨st.visited_urls ++ [url], st.all_urls⟩) links

theorem extract_urls_all_new (env : FetchEnv) (domain : String)
    (max_depth max_pages : Nat) (st : CrawlState) (url : String) (depth : Nat) :
    ∀ s ∈ (extract_urls env domain max_depth max_pages st url depth).2.all_urls,
      s ∈ st.all_urls ∨ ∃ l, is_valid_url domain l = true ∧ s = urlString l := by
  simp only [extract_urls]
  split
  · exact fun s hs => Or.inl hs
  · cases h : env url with
    | none => simp only [h]; exact fun s hs => Or.inl hs
    | some links =>
      simp only [h]
      exact add_links_all_new domain ([], ⟨st.visited_urls ++ [url], st.all_urls⟩) links

theorem extract_urls_all_nodup (env : FetchEnv) (domain : String)
    (max_depth max_pages : Nat) (st : CrawlState) (url : String) (depth : Nat)
    (h : st.all_urls.Nodup) :
    (extract_urls env domain max_depth max_pages st url depth).2.all_urls.Nodup := by
  simp only [extract_urls]
  split
  · exact h
  · cases henv : env url with
    | none => simp only [henv]; exact h
    | some links =>
      simp only [henv]
      exact add_links_all_nodup domain ([], ⟨st.visited_urls ++ [url], st.all_urls⟩) links h

theorem extract_urls_page (env : FetchEnv) (domain : String)
    (max_depth max_pages : Nat) (st : CrawlState) (url : String) (depth : Nat) :
    ∀ s ∈ (extract_urls env domain max_depth max_pages st url depth).1,
      s ∈ (extract_urls env domain max_depth max_pages st url depth).2.all_urls := by
  simp only [extract_urls]
  split
  · simp
  · cases h : env url with
    | none => simp only [h]; simp
    | some links =>
      simp only [h]
      intro s hs
      rcases add_links_page domain ([], ⟨st.visited_urls ++ [url], st.all_urls⟩) links s hs with
        hc | hc
      · simp at hc
      · exact hc

theorem extract_urls_len (env : FetchEnv) (domain : String)
    (max_depth max_pages : Nat) (st : CrawlState) (url : String) (depth : Nat)
    (h : st.visited_urls.length ≤ max_pages) :
    (extract_urls env domain max_depth max_pages st url depth).2.visited_urls.length
      ≤ max_pages := by
  simp only [extract_urls]
  split
  · exact h
  · rename_i hguard
    push_neg at hguard
    cases henv : env url with
    | none => simp only [henv]; exact h
    | some links =>
      simp only [henv, add_links_visited]
      have : st.visited_urls.length < max_pages := hguard.2.2
      simpa using this

theorem crawl_level_visited_new (env : FetchEnv) (domain : String)
    (max_depth max_pages depth : Nat) (acc : List String × CrawlState)
    (us : List String) :
    ∀ v ∈ (crawl_level env domain max_depth max_pages depth acc us).2.visited_urls,
      v ∈ acc.2.visited_urls ∨ v ∈ us := by
  induction us generalizing acc with
  | nil => exact fun v hv => Or.inl hv
  | cons u us ih =>
    simp only [crawl_level]
    intro v hv
    rcases ih _ v hv with h | h
    · rcases extract_urls_visited_new env domain max_depth max_pages acc.2 u depth v h with
        h2 | h2
      · exact Or.inl h2
      · exact Or.inr (by simp [h2])
    · exact Or.inr (by simp [h])

theorem crawl_level_all_mono (env : FetchEnv) (domain : String)
    (max_depth max_pages depth : Nat) (acc : List String × CrawlState)
    (us : List String) :
    acc.2.all_urls ⊆ (crawl_level env domain max_depth max_pages depth acc us).2.all_urls := by
  induction us generalizing acc with
  | nil => exact fun x hx => hx
  | cons u us ih =>
    simp only [crawl_level]
    intro x hx
    exact ih _ (extract_urls_all_mono env domain max_depth max_pages acc.2 u depth hx)

theorem crawl_level_all_new (env : FetchEnv) (domain : String)
    (max_depth max_pages depth : Nat) (acc : List String × CrawlState)
    (us : List String) :
    ∀ s ∈ (crawl_level env domain max_depth max_pages depth acc us).2.all_urls,
      s ∈ acc.2.all_urls ∨ ∃ l, is_valid_url domain l = true ∧ s = urlString l := by
  induction us generalizing acc with
  | nil => exact fun s hs => Or.inl hs
  | cons u us ih =>
    simp only [crawl_level]
    intro s hs
    rcases ih _ s hs with h | h
    · exact extract_urls_all_new env domain max_depth max_pages acc.2 u depth s h
    · exact Or.inr h

theorem crawl_level_all_nodup (env : FetchEnv) (domain : String)
    (max_depth max_pages depth : Nat) (acc : List String × CrawlState)
    (us : List String) (h : acc.2.all_urls.Nodup) :
    (crawl_level env domain max_depth max_pages depth acc us).2.all_urls.Nodup := by
  induction us generalizing acc with
  | nil => exact h
  | cons u us ih =>
    simp only [crawl_level]
    exact ih _ (extract_urls_all_nodup env domain max_depth max_pages acc.2 u depth h)

theorem crawl_level_next (env : FetchEnv) (domain : String)
    (max_depth max_pages depth : Nat) (acc : List String × CrawlState)
    (us : List String) :
    ∀ s ∈ (crawl_level env domain max_depth max_pages depth acc us).1,
      s ∈ acc.1 ∨ s ∈ (crawl_level env domain max_depth max_pages depth acc us).2.all_urls := by
  induction us generalizing acc with
  | nil => exact fun s hs => Or.inl hs
  | cons u us ih =>
    simp only [crawl_level]
    intro s hs
    rcases ih _ s hs with h | h
    · simp only [List.mem_append] at h
      rcases h with h | h
      · exact Or.inl h
      · refine Or.inr ?_
        refine crawl_level_all_mono env domain max_depth max_pages depth _ us ?_
        exact extract_urls_page env domain max_depth max_pages acc.2 u depth s h
    · exact Or.inr h

theorem crawl_level_len (env : FetchEnv) (domain : String)
    (max_depth max_pages depth : Nat) (acc : List String × CrawlState)
    (us : List String) (h : acc.2.visited_urls.length ≤ max_pages) :
    (crawl_level env domain max_depth max_pages depth acc us).2.visited_urls.length
      ≤ max_pages := by
  induction us generalizing acc with
  | nil => exact h
  | cons u us ih =>
    simp only [crawl_level]
    exact ih _ (extract_urls_len env domain max_depth max_pages acc.2 u depth h)

/-- Main invariant of the depth loop: every visited URL other than the
start URL is discovered; every discovered URL is the rendering of a URL
accepted by is_valid_url; the discovered list is duplicate-free; and the
visited count never exceeds max_pages. -/
theorem crawl_go_inv (env : FetchEnv) (domain b : String) (max_depth max_pages : Nat) :
    ∀ (fuel depth : Nat) (frontier : List String) (st : CrawlState),
      (∀ u ∈ frontier, u = b ∨ u ∈ st.all_urls) →
      (∀ v ∈ st.visited_urls, v = b ∨ v ∈ st.all_urls) →
      (∀ s ∈ st.all_urls, ∃ l, is_valid_url domain l = true ∧ s = urlString l) →
      st.all_urls.Nodup →
      st.visited_urls.length ≤ max_pages →
      (∀ v ∈ (crawl_go env domain max_depth max_pages fuel depth frontier st).1.visited_urls,
          v = b ∨ v ∈ (crawl_go env domain max_depth max_pages fuel depth frontier st).1.all_urls) ∧
      (∀ s ∈ (crawl_go env domain max_depth max_pages fuel depth frontier st).1.all_urls,
          ∃ l, is_valid_url domain l = true ∧ s = urlString l) ∧
      (crawl_go env domain max_depth max_pages fuel depth frontier st).1.all_urls.Nodup ∧
      (crawl_go env domain max_depth max_pages fuel depth frontier st).1.visited_urls.length
        ≤ max_pages := by
  intro fuel
  induction fuel with
  | zero => exact fun depth frontier st hF h1 h2 h3 h4 => ⟨h1, h2, h3, h4⟩
  | succ fuel ih =>
    intro depth frontier st hF h1 h2 h3 h4
    simp only [crawl_go]
    have hvis : ∀ v ∈ (crawl_level env domain max_depth max_pages depth ([], st)
        frontier).2.visited_urls,
        v = b ∨ v ∈ (crawl_level env domain max_depth max_pages depth ([], st)
          frontier).2.all_urls := by
      intro v hv
      rcases crawl_level_visited_new env domain max_depth max_pages depth ([], st) frontier
        v hv with h | h
      · rcases h1 v h with hb | ha
        · exact Or.inl hb
        · exact Or.inr (crawl_level_all_mono env domain max_depth max_pages depth ([], st)
            frontier ha)
      · rcases hF v h with hb | ha
        · exact Or.inl hb
        · exact Or.inr (crawl_level_all_mono env domain max_depth max_pages depth ([], st)
            frontier ha)
    have hall : ∀ s ∈ (crawl_level env domain max_depth max_pages depth ([], st)
        frontier).2.all_urls,
        ∃ l, is_valid_url domain l = true ∧ s = urlString l := by
      intro s hs
      rcases crawl_level_all_new env domain max_depth max_pages depth ([], st) frontier
        s hs with h | h
      · exact h2 s h
      · exact h
    have hnd := crawl_level_all_nodup env domain max_depth max_pages depth ([], st) frontier h3
    have hlen := crawl_level_len env domain max_depth max_pages depth ([], st) frontier h4
    split
    · exact ⟨hvis, hall, hnd, hlen⟩
    · refine ih (depth + 1) _ _ ?_ hvis hall hnd hlen
      intro u hu
      rcases crawl_level_next env domain max_depth max_pages depth ([], st) frontier u hu with
        h | h
      · simp at h
      · exact Or.inr h

/-- If no link on a page passes the eligibility test, the anchor loop
leaves the accumulator unchanged. -/
theorem add_links_none (domain : String) (acc : List String × CrawlState)
    (ls : List Url) (h : ∀ l ∈ ls, is_valid_url domain l = false) :
    add_links domain acc ls = acc := by
  induction ls generalizing acc with
  | nil => rfl
  | cons l ls ih =>
    simp only [add_links]
    rw [if_neg, ih _ (fun x hx => h x (by simp [hx]))]
    simp [h l (by simp)]

/-- A suffix set apart by a separator character cannot end a string whose
tail after the separator avoids it. -/
theorem not_suffix_across_sep (e a q : List Char) (c : Char)
    (hc : c ∉ e) (hq : ¬ e <:+ q) : ¬ e <:+ a ++ (c :: q) := by
  intro h
  have hq2 : (c :: q) <:+ a ++ (c :: q) := List.suffix_append a (c :: q)
  rcases List.suffix_or_suffix_of_suffix h hq2 with h1 | h1
  · rcases List.suffix_cons_iff.mp h1 with h2 | h2
    · exact hc (by simp [h2])
    · exact hq h2
  · exact hc (h1.subset (by simp))

/-! ### Claim theorems about the traversal -/

/-- Spec reading of eligibility (claim C4): the PATH must not end in a
filtered extension.  The code tests the whole URL string instead. -/
def spec_valid_url (domain : String) (u : Url) : Bool :=
  (u.netloc == domain) && (u.scheme == "http" || u.scheme == "https")
    && !(extensions.any (fun e => pyEndsWith u.path e))

/-- C4 counterexample: http://example.com/doc.pdf?page=1 has a path ending
in .pdf, so the claim calls it ineligible, yet is_valid_url accepts it
(the string ends in "1", not ".pdf"). -/
theorem c4_counterexample :
    is_valid_url "example.com" ⟨"http", "example.com", "/doc.pdf", "page=1", ""⟩ = true ∧
    spec_valid_url "example.com" ⟨"http", "example.com", "/doc.pdf", "page=1", ""⟩ = false := by
  decide

/-- C4 amended: is_valid_url accepts a URL iff its host equals the fixed
domain, its scheme is http or https, and the FULL URL STRING does not end
in a filtered extension; moreover, whenever a fragment-free URL carries a
nonempty query that does not itself end in a filtered extension, the
extension test passes regardless of the path. -/
theorem c4_eligibility (domain : String) (u : Url) :
    (is_valid_url domain u = true ↔
      (u.netloc = domain ∧ (u.scheme = "http" ∨ u.scheme = "https") ∧
        ∀ e ∈ extensions, pyEndsWith (urlString u) e = false)) ∧
    (u.frag = "" → u.query ≠ "" →
      (∀ e ∈ extensions, pyEndsWith u.query e = false) →
      ∀ e ∈ extensions, pyEndsWith (urlString u) e = false) := by
  constructor
  · simp only [is_valid_url, Bool.and_eq_true, Bool.or_eq_true, beq_iff_eq,
      Bool.not_eq_true', List.any_eq_false]
    constructor
    · rintro ⟨⟨h1, h2⟩, h3⟩
      exact ⟨h1, by simpa using h2, fun e he => Bool.eq_false_iff.mpr (h3 e he)⟩
    · rintro ⟨h1, h2, h3⟩
      exact ⟨⟨h1, by simpa using h2⟩, fun e he => Bool.eq_false_iff.mp (h3 e he)⟩
  · intro hfrag hq hqe e he
    have hdata : (urlString u).data =
        (u.scheme ++ "://" ++ u.netloc ++ u.path).data ++ ('?' :: u.query.data) := by
      simp only [urlString, hfrag, if_neg hq, if_pos rfl, String.data_append]
      simp
    simp only [pyEndsWith]
    rw [hdata]
    have hc : '?' ∉ e.data := by
      fin_cases he <;> decide
    have hqs : ¬ e.data <:+ u.query.data := by
      have := hqe e he
      simp only [pyEndsWith] at this
      intro hcon
      rw [Bool.eq_false_iff] at this
      exact this (List.isSuffixOf_iff_suffix.mpr hcon)
    rw [Bool.eq_false_iff]
    intro hcon
    exact not_suffix_across_sep e.data _ u.query.data '?' hc hqs
      (List.isSuffixOf_iff_suffix.mp hcon)

theorem c4_witness :
    pyEndsWith (urlString ⟨"http", "example.com", "/doc.pdf", "page=1", ""⟩) ".pdf" = false :=
  (c4_eligibility "example.com" ⟨"http", "example.com", "/doc.pdf", "page=1", ""⟩).2
    rfl (by decide) (by decide) ".pdf" (by decide)

/-- C1 counterexample: crawling http://example.com/ whose page has no
anchors leaves the start URL in visited_urls but all_urls empty, so the
Discovered set is not a superset of the Visited set. -/
theorem c1_counterexample :
    ∃ v ∈ (crawl env0 base0 10 500).1.visited_urls,
      v ∉ (crawl env0 base0 10 500).1.all_urls := by decide

/-- C1 amended: at the end of every traversal run, every visited URL other
than the start URL is in the Discovered set (the start URL itself is
visited but never added to all_urls). -/
theorem c1_discovered_superset (env : FetchEnv) (base : Url) (max_depth max_pages : Nat) :
    ∀ v ∈ (crawl env base max_depth max_pages).1.visited_urls,
      v = urlString base ∨ v ∈ (crawl env base max_depth max_pages).1.all_urls :=
  (crawl_go_inv env base.netloc (urlString base) max_depth max_pages max_depth 0
    [urlString base] ⟨[], []⟩ (by simp) (by simp) (by simp) (by simp) (by simp)).1

theorem c1_witness :
    "http://example.com/" = urlString base0 ∨
      "http://example.com/" ∈ (crawl env0 base0 10 500).1.all_urls :=
  c1_discovered_superset env0 base0 10 500 "http://example.com/" (by decide)

/-- C2 counterexample: on a start page with zero outbound links the
Discovered set is empty, not the singleton of the start URL. -/
theorem c2_counterexample :
    (crawl env0 base0 10 500).1.all_urls = [] ∧
    urlString base0 ∉ (crawl env0 base0 10 500).1.all_urls := by decide

/-- C2 amended: with positive depth and page budgets, when every link of
the start page fails the eligibility test (in particular when the page has
zero outbound in-domain links), the traversal terminates after exactly one
level with Visited = the start URL and an EMPTY Discovered set — not the
singleton of the start URL. -/
theorem c2_no_eligible_outlinks (env : FetchEnv) (base : Url) (max_depth max_pages : Nat)
    (links : List Url) (hd : 1 ≤ max_depth) (hp : 1 ≤ max_pages)
    (henv : env (urlString base) = some links)
    (hlinks : ∀ l ∈ links, is_valid_url base.netloc l = false) :
    crawl env base max_depth max_pages = (⟨[urlString base], []⟩, 1) := by
  obtain ⟨f, rfl⟩ : ∃ f, max_depth = f + 1 := ⟨max_depth - 1, by omega⟩
  have hextract : extract_urls env base.netloc (f + 1) max_pages ⟨[], []⟩ (urlString base) 0
      = ([], ⟨[urlString base], []⟩) := by
    have hg : ¬(urlString base ∈ ([] : List String) ∨ (f + 1) < 0 ∨
        max_pages ≤ ([] : List String).length) := by
      push_neg
      exact ⟨List.not_mem_nil _, by omega, by simp; omega⟩
    simp only [extract_urls]
    rw [if_neg hg, henv]
    show add_links base.netloc ([], ⟨[] ++ [urlString base], []⟩) links
      = ([], ⟨[urlString base], []⟩)
    rw [add_links_none base.netloc _ links hlinks]
    simp
  have hlevel : crawl_level env base.netloc (f + 1) max_pages 0 ([], ⟨[], []⟩)
      [urlString base] = ([], ⟨[urlString base], []⟩) := by
    simp only [crawl_level, hextract]
    rfl
  simp only [crawl, crawl_go]
  rw [hlevel]
  simp

theorem c2_witness :
    crawl env0 base0 10 500 = (⟨[urlString base0], []⟩, 1) :=
  c2_no_eligible_outlinks env0 base0 10 500 [] (by omega) (by omega) (by decide) (by simp)

/-- Start URL with a filtered extension, plus an environment in which its
page fetch succeeds (with no anchors). -/
def basePdf : Url := ⟨"http", "example.com", "/doc.pdf", "", ""⟩

def envPdf : FetchEnv := fun s => if s = "http://example.com/doc.pdf" then some [] else none

/-- C5 counterexample: the crawler expands the start URL without ever
testing it, so a start URL ending in .pdf — a filtered extension — is
fetched and lands in visited_urls. -/
theorem c5_counterexample :
    urlString basePdf ∈ (crawl envPdf basePdf 10 500).1.visited_urls ∧
    ".pdf" ∈ extensions ∧ pyEndsWith (urlString basePdf) ".pdf" = true := by decide

/-- C5 amended: every expanded URL other than the start URL is the
rendering of a URL accepted by is_valid_url — hence its host equals the
fixed domain and it ends in no filtered extension; the start URL itself is
expanded with no such check; and (in this linearization of the worker
pool) the number of distinct expanded URLs never exceeds max_pages. -/
theorem c5_expansion_guarded (env : FetchEnv) (base : Url) (max_depth max_pages : Nat) :
    (∀ v ∈ (crawl env base max_depth max_pages).1.visited_urls,
      v = urlString base ∨
        ∃ l, l.netloc = base.netloc ∧ v = urlString l ∧
          ∀ e ∈ extensions, pyEndsWith v e = false) ∧
    (crawl env base max_depth max_pages).1.visited_urls.length ≤ max_pages := by
  have hinv := crawl_go_inv env base.netloc (urlString base) max_depth max_pages max_depth 0
    [urlString base] ⟨[], []⟩ (by simp) (by simp) (by simp) (by simp) (by simp)
  refine ⟨fun v hv => ?_, hinv.2.2.2⟩
  rcases hinv.1 v hv with hb | ha
  · exact Or.inl hb
  · rcases hinv.2.1 v ha with ⟨l, hval, hrender⟩
    refine Or.inr ⟨l, ?_, hrender, ?_⟩
    · have := (Bool.and_eq_true _ _ ▸ hval).1
      have := (Bool.and_eq_true _ _ ▸ this).1
      simpa using this
    · have := (Bool.and_eq_true _ _ ▸ hval).2
      simp only [Bool.not_eq_true', List.any_eq_false] at this
      intro e he
      rw [hrender]
      exact Bool.eq_false_iff.mpr (this e he)

theorem c5_witness :
    ("http://example.com/" = urlString base0 ∨
      ∃ l, l.netloc = base0.netloc ∧ "http://example.com/" = urlString l ∧
        ∀ e ∈ extensions, pyEndsWith "http://example.com/" e = false) ∧
    (crawl env0 base0 10 500).1.visited_urls.length ≤ 500 :=
  ⟨(c5_expansion_guarded env0 base0 10 500).1 "http://example.com/" (by decide),
   (c5_expansion_guarded env0 base0 10 500).2⟩

/-- C9 confirmed: the persisted output lines are exactly the Discovered
set, lexicographically sorted with no duplicate lines. -/
theorem c9_output_sorted (env : FetchEnv) (base : Url) (max_depth max_pages : Nat) :
    (output_lines (crawl env base max_depth max_pages).1).Sorted (· ≤ ·) ∧
    (output_lines (crawl env base max_depth max_pages).1).Nodup ∧
    ∀ s, s ∈ output_lines (crawl env base max_depth max_pages).1 ↔
      s ∈ (crawl env base max_depth max_pages).1.all_urls := by
  have hperm : List.Perm (output_lines (crawl env base max_depth max_pages).1)
      (crawl env base max_depth max_pages).1.all_urls :=
    List.perm_insertionSort _ _
  have hnd : (crawl env base max_depth max_pages).1.all_urls.Nodup :=
    (crawl_go_inv env base.netloc (urlString base) max_depth max_pages max_depth 0
      [urlString base] ⟨[], []⟩ (by simp) (by simp) (by simp) (by simp) (by simp)).2.2.1
  exact ⟨List.sorted_insertionSort _ _, hperm.nodup_iff.mpr hnd, fun s => hperm.mem_iff⟩

/-! ### PDFScraper (research/PdfExtractor.py)

The document fetch capability returns, for a candidate URL, either `none`
(an exception in requests.get) or a status code, the filename advertised
through the Content-Disposition header (already matched by the regex, so
an Option), and the body bytes.  The page fetch capability returns the
status and the container-scoped PDF links (extract_pdf_links is the
external HTML-extraction collaborator).  MD5 digests, the URL-path
basename and the URL digest used for fallback filenames are likewise
capability parameters: the code only ever compares digests for equality
and concatenates the names. -/

structure FetchResp where
  status : Nat
  cd_name : Option String
  body : List Nat
deriving DecidableEq

structure ScrEnv where
  fetch_doc : String → Option FetchResp
  fetch_page : String → Option (Nat × List String)
  hash_bytes : List Nat → Nat
  url_basename : String → String
  url_hash : String → String

/-- Mutable state of a PDFScraper plus the persisted bits it owns: the
in-memory URL set and digest set, the files of the output directory
(name, bytes), and the lines of download_history.txt. -/
structure ScrState where
  downloaded_urls : List String
  downloaded_hashes : List Nat
  files : List (String × List Nat)
  history : List String
deriving DecidableEq

/-- PDFScraper.__init__: the in-memory URL set is seeded from the lines of
the history file; the content-hash set starts empty each run. -/
def init_scraper (history_lines : List String) (files0 : List (String × List Nat)) :
    ScrState :=
  ⟨history_lines, [], files0, history_lines⟩

/-- Names present in the output directory. -/
def file_names (st : ScrState) : List String :=
  st.files.map Prod.fst

/-- os.remove: drop the file at the given name. -/
def os_remove (files : List (String × List Nat)) (name : String) :
    List (String × List Nat) :=
  files.filter (fun p => p.1 ≠ name)

/-- Filename choice in download_pdf: Content-Disposition name if present,
else the URL path basename when it is nonempty and already (case
insensitively) a .pdf name, else an md5-of-URL stem with .pdf appended. -/
def choose_filename (env : ScrEnv) (url : String) (cd : Option String) : String :=
  match cd with
  | some f => f
  | none =>
    let b := env.url_basename url
    if b ≠ "" ∧ pyEndsWith (pyLower b) ".pdf" = true then b
    else env.url_hash url ++ ".pdf"

/-- The unconditional extension fix-up: append .pdf unless the lowercased
name already ends in it. -/
def ensure_pdf (f : String) : String :=
  if pyEndsWith (pyLower f) ".pdf" = true then f else f ++ ".pdf"

/-- Candidate name tried by the collision loop at counter c. -/
def cand (orig : String) (c : Nat) : String :=
  orig ++ "_" ++ Nat.repr c ++ ".pdf"

/-- The while-loop of the collision resolution, fuelled: the fuel chosen
below is provably sufficient. -/
def collide_go (names : List String) (orig : String) : Nat → Nat → String
  | 0, c => cand orig c
  | fuel + 1, c =>
    if names.contains (cand orig c) then collide_go names orig fuel (c + 1)
    else cand orig c

/-- Collision resolution of download_pdf: while the path exists, retry
with original_filename (the name with every '.pdf' removed), an
underscore, the counter and '.pdf'. -/
def resolve_name (names : List String) (fn : String) : String :=
  if names.contains fn then collide_go names (pyRemovePdf fn) (names.length + 1) 1
  else fn

/-- PDFScraper.download_pdf (with the in-repo call pattern filename=None):
returns whether the document was newly stored, and the updated state. -/
def download_pdf (env : ScrEnv) (st : ScrState) (url : String) : Bool × ScrState :=
  if st.downloaded_urls.contains url then (false, st)
  else
    match env.fetch_doc url with
    | none => (false, st)
    | some r =>
      if r.status ≠ 200 then (false, st)
      else
        let fn2 := resolve_name (file_names st) (ensure_pdf (choose_filename env url r.cd_name))
        let files1 := st.files ++ [(fn2, r.body)]
        let d := env.hash_bytes r.body
        if st.downloaded_hashes.contains d then
          (false, { st with files := os_remove files1 fn2 })
        else
          (true, ⟨st.downloaded_urls ++ [url], st.downloaded_hashes ++ [d],
            files1, st.history ++ [url]⟩)

/-- The download loop of scrape_page over the extracted links,
accumulating the per-page counter. -/
def download_list (env : ScrEnv) (acc : Nat × ScrState) : List String → Nat × ScrState
  | [] => acc
  | l :: ls =>
    let r := download_pdf env acc.2 l
    download_list env (if r.1 then acc.1 + 1 else acc.1, r.2) ls

/-- PDFScraper.scrape_page: a fetch exception or a non-200 status yields
zero documents and no state change. -/
def scrape_page (env : ScrEnv) (st : ScrState) (url : String) : Nat × ScrState :=
  match env.fetch_page url with
  | none => (0, st)
  | some (status, links) =>
    if status ≠ 200 then (0, st)
    else download_list env (0, st) links

/-- The page loop of scrape_multiple_pages, accumulating the total. -/
def scrape_pages (env : ScrEnv) (acc : Nat × ScrState) : List String → Nat × ScrState
  | [] => acc
  | p :: ps =>
    let r := scrape_page env acc.2 p
    scrape_pages env (acc.1 + r.1, r.2) ps

/-- PDFScraper.scrape_multiple_pages. -/
def scrape_multiple_pages (env : ScrEnv) (st : ScrState) (urls : List String) :
    Nat × ScrState :=
  scrape_pages env (0, st) urls

/-- All candidate document links the run will offer to download_pdf: the
links of every page that fetches with status 200, in order. -/
def candidates (env : ScrEnv) : List String → List String
  | [] => []
  | p :: ps =>
    match env.fetch_page p with
    | none => candidates env ps
    | some (status, links) =>
      if status = 200 then links ++ candidates env ps else candidates env ps

/-! ### Correctness of the filename-collision loop -/

theorem cand_injective (orig : String) :
    ∀ c1 c2 : Nat, cand orig c1 = cand orig c2 → c1 = c2 := by
  intro c1 c2 h
  have hd := congrArg String.data h
  simp only [cand, String.data_append] at hd
  have h1 := (List.append_inj' hd rfl).1
  have h2 := List.append_cancel_left h1
  exact natRepr_injective c1 c2 (String.ext h2)

theorem nodup_subset_length {α : Type} [DecidableEq α] (l m : List α)
    (h : l.Nodup) (hs : l ⊆ m) : l.length ≤ m.length := by
  have h1 : l.toFinset.card = l.length := List.toFinset_card_of_nodup h
  have h2 : l.toFinset ⊆ m.toFinset := by
    intro x hx
    simp only [List.mem_toFinset] at hx ⊢
    exact hs hx
  calc l.length = l.toFinset.card := h1.symm
    _ ≤ m.toFinset.card := Finset.card_le_card h2
    _ ≤ m.length := List.toFinset_card_le m

/-- Pigeonhole: among names.length + 1 successive candidates at least one
is not taken. -/
theorem cand_fresh (names : List String) (orig : String) :
    ∃ i < names.length + 1, cand orig (1 + i) ∉ names := by
  by_contra hcon
  push_neg at hcon
  have hnd : ((List.range (names.length + 1)).map (fun i => cand orig (1 + i))).Nodup := by
    refine (List.nodup_range _).map ?_
    intro i j hij
    have := cand_injective orig (1 + i) (1 + j) hij
    omega
  have hsub : ((List.range (names.length + 1)).map (fun i => cand orig (1 + i))) ⊆ names := by
    intro x hx
    simp only [List.mem_map, List.mem_range] at hx
    obtain ⟨i, hi, rfl⟩ := hx
    exact hcon i hi
  have hlen := nodup_subset_length _ names hnd hsub
  simp at hlen

theorem collide_go_spec (names : List String) (orig : String) :
    ∀ (fuel c : Nat), (∃ i < fuel, cand orig (c + i) ∉ names) →
      collide_go names orig fuel c ∉ names := by
  intro fuel
  induction fuel with
  | zero =>
    intro c h
    obtain ⟨i, hi, _⟩ := h
    omega
  | succ fuel ih =>
    intro c h
    simp only [collide_go]
    split
    · rename_i htaken
      refine ih (c + 1) ?_
      obtain ⟨i, hi, hfree⟩ := h
      have hi0 : i ≠ 0 := by
        rintro rfl
        simp only [Nat.add_zero] at hfree
        exact hfree (by simpa using htaken)
      exact ⟨i - 1, by omega, by have : c + 1 + (i - 1) = c + i := by omega
                                 rw [this]; exact hfree⟩
    · rename_i hfree
      simpa using hfree

/-- The resolved filename is never one of the existing names: no file is
overwritten. -/
theorem resolve_name_fresh (names : List String) (fn : String) :
    resolve_name names fn ∉ names := by
  simp only [resolve_name]
  split
  · refine collide_go_spec names (pyRemovePdf fn) (names.length + 1) 1 ?_
    obtain ⟨i, hi, hfree⟩ := cand_fresh names (pyRemovePdf fn)
    exact ⟨i, hi, by simpa [Nat.add_comm] using hfree⟩
  · rename_i h
    simpa using h

theorem pyLower_append (a b : String) : pyLower (a ++ b) = pyLower a ++ pyLower b := by
  apply String.ext
  simp [pyLower, String.data_append]

theorem pyEndsWith_append_self (a b : String) : pyEndsWith (a ++ b) b = true := by
  simp only [pyEndsWith, String.data_append]
  exact List.isSuffixOf_iff_suffix.mpr (List.suffix_append a.data b.data)

theorem pyLower_pdf_suffix (x : String) :
    pyEndsWith (pyLower (x ++ ".pdf")) ".pdf" = true := by
  rw [pyLower_append]
  have : pyLower ".pdf" = ".pdf" := by decide
  rw [this]
  exact pyEndsWith_append_self _ _

theorem ensure_pdf_spec (f : String) :
    pyEndsWith (pyLower (ensure_pdf f)) ".pdf" = true := by
  simp only [ensure_pdf]
  split
  · assumption
  · exact pyLower_pdf_suffix f

theorem resolve_name_pdf (names : List String) (fn : String)
    (h : pyEndsWith (pyLower fn) ".pdf" = true) :
    pyEndsWith (pyLower (resolve_name names fn)) ".pdf" = true := by
  simp only [resolve_name]
  split
  · generalize names.length + 1 = fuel
    generalize 1 = c
    induction fuel generalizing c with
    | zero => exact pyLower_pdf_suffix _
    | succ fuel ih =>
      simp only [collide_go]
      split
      · exact ih _
      · exact pyLower_pdf_suffix _
  · exact h

/-- Removing the just-written fresh file restores the directory. -/
theorem os_remove_append_fresh (files : List (String × List Nat)) (name : String)
    (body : List Nat) (h : name ∉ files.map Prod.fst) :
    os_remove (files ++ [(name, body)]) name = files := by
  simp only [os_remove, List.filter_append]
  have h1 : files.filter (fun p => p.1 ≠ name) = files := by
    refine List.filter_eq_self.mpr ?_
    intro p hp
    simp only [decide_eq_true_eq]
    intro hcon
    exact h (List.mem_map.mpr ⟨p, hp, hcon⟩)
  have h2 : ([(name, body)] : List (String × List Nat)).filter (fun p => p.1 ≠ name) = [] := by
    simp
  rw [h1, h2, List.append_nil]

/-! ### Claim theorems about the acquisition engine -/

/-- Environment in which every document fetch succeeds and advertises the
Content-Disposition filename A.PDF. -/
def envA : ScrEnv :=
  ⟨fun _ => some ⟨200, some "A.PDF", [1]⟩, fun _ => none,
    fun b => b.length, fun _ => "", fun _ => "h"⟩

/-- C6 counterexample: a server-advertised filename A.PDF passes the
case-insensitive extension check unchanged, so the stored filename does
not end in ".pdf". -/
theorem c6_counterexample :
    file_names (download_pdf envA (init_scraper [] []) "u").2 = ["A.PDF"] ∧
    pyEndsWith "A.PDF" ".pdf" = false := by decide

/-- C6 amended: a download step either leaves the output directory's names
unchanged, or adds exactly one file whose name was not previously present
(no existing file is ever overwritten) and which ends in .pdf up to ASCII
letter case (the code's check is case-insensitive, so e.g. A.PDF is kept
as is). -/
theorem c6_no_overwrite (env : ScrEnv) (st : ScrState) (url : String) :
    file_names (download_pdf env st url).2 = file_names st ∨
      ∃ fn, fn ∉ file_names st ∧
        file_names (download_pdf env st url).2 = file_names st ++ [fn] ∧
        pyEndsWith (pyLower fn) ".pdf" = true := by
  simp only [download_pdf]
  split
  · exact Or.inl rfl
  · cases henv : env.fetch_doc url with
    | none => exact Or.inl rfl
    | some r =>
      dsimp only
      have hfresh := resolve_name_fresh (file_names st)
        (ensure_pdf (choose_filename env url r.cd_name))
      have hpdf := resolve_name_pdf (file_names st)
        (ensure_pdf (choose_filename env url r.cd_name))
        (ensure_pdf_spec (choose_filename env url r.cd_name))
      split
      · exact Or.inl rfl
      · split
        · refine Or.inl ?_
          have heq := os_remove_append_fresh st.files
            (resolve_name (file_names st) (ensure_pdf (choose_filename env url r.cd_name)))
            r.body hfresh
          simp only [file_names]
          exact congrArg (List.map Prod.fst) heq
        · refine Or.inr ⟨resolve_name (file_names st)
            (ensure_pdf (choose_filename env url r.cd_name)), hfresh, ?_, hpdf⟩
          simp [file_names]

/-- C7 confirmed: when the fetched content's digest is already in the
content-hash set, download_pdf deletes the just-written file and returns
False with the state — history, hash set and directory — exactly as it
was. -/
theorem c7_duplicate_content (env : ScrEnv) (st : ScrState) (url : String) (r : FetchResp)
    (hurl : st.downloaded_urls.contains url = false)
    (henv : env.fetch_doc url = some r)
    (hstatus : r.status = 200)
    (hdup : st.downloaded_hashes.contains (env.hash_bytes r.body) = true) :
    download_pdf env st url = (false, st) := by
  have hfresh := resolve_name_fresh (file_names st)
    (ensure_pdf (choose_filename env url r.cd_name))
  simp only [download_pdf, hurl, henv, hstatus, hdup]
  simp only [Bool.false_eq_true, if_false, ne_eq, not_true_eq_false, if_true]
  rw [os_remove_append_fresh st.files _ r.body hfresh]

/-- A state with one prior artifact of digest 1 (with the byte-length
digest model, the body [7] collides with it). -/
def st7 : ScrState := ⟨[], [1], [("x.pdf", [5])], []⟩

def envD : ScrEnv :=
  ⟨fun _ => some ⟨200, some "a.pdf", [7]⟩, fun _ => none,
    fun b => b.length, fun _ => "", fun _ => "h"⟩

theorem c7_witness : download_pdf envD st7 "u" = (false, st7) :=
  c7_duplicate_content envD st7 "u" ⟨200, some "a.pdf", [7]⟩
    (by decide) rfl rfl (by decide)

/-- C8 confirmed: a page whose fetch returns a non-200 status contributes
zero documents, leaves the scraper state untouched, and the page loop
continues with the remaining pages as if the page were absent. -/
theorem c8_non200_page (env : ScrEnv) (st : ScrState) (url : String) (status : Nat)
    (links : List String) (rest : List String) (n0 : Nat)
    (henv : env.fetch_page url = some (status, links)) (hstatus : status ≠ 200) :
    scrape_page env st url = (0, st) ∧
    scrape_pages env (n0, st) (url :: rest) = scrape_pages env (n0, st) rest := by
  have h1 : scrape_page env st url = (0, st) := by
    simp only [scrape_page, henv]
    rw [if_pos hstatus]
  refine ⟨h1, ?_⟩
  simp only [scrape_pages, h1]
  rw [Nat.add_zero]

def env8 : ScrEnv :=
  ⟨fun _ => none, fun p => if p = "p" then some (404, ["l"]) else none,
    fun b => b.length, fun _ => "", fun _ => "h"⟩

theorem c8_witness :
    scrape_page env8 (init_scraper [] []) "p" = (0, init_scraper [] []) ∧
    scrape_pages env8 (0, init_scraper [] []) ["p"] =
      scrape_pages env8 (0, init_scraper [] []) [] :=
  c8_non200_page env8 (init_scraper [] []) "p" 404 ["l"] [] 0 (by decide) (by decide)

/-! ### Acquisition idempotence machinery (claim C3) -/

/-- Provenance of the content-hash set: every stored digest is the digest
of the body fetched from some already-recorded URL. -/
def HashInv (env : ScrEnv) (st : ScrState) : Prop :=
  ∀ d ∈ st.downloaded_hashes, ∃ u ∈ st.downloaded_urls,
    ∃ r, env.fetch_doc u = some r ∧ d = env.hash_bytes r.body

/-- Invariant of a first acquisition run started with empty history: the
in-memory URL set mirrors the history file, digests have recorded
provenance, and every recorded URL is one of the run's candidates. -/
def Run1Inv (env : ScrEnv) (cnd : List String) (st : ScrState) : Prop :=
  st.downloaded_urls = st.history ∧ HashInv env st ∧
    ∀ u ∈ st.downloaded_urls, u ∈ cnd

/-- Either a download leaves the url/hash/history fields unchanged, or it
appends exactly the url to the URL set and history and its body's digest
to the hash set. -/
theorem download_pdf_step (env : ScrEnv) (st : ScrState) (url : String) :
    ((download_pdf env st url).2.downloaded_urls = st.downloaded_urls ∧
     (download_pdf env st url).2.downloaded_hashes = st.downloaded_hashes ∧
     (download_pdf env st url).2.history = st.history) ∨
    ((download_pdf env st url).2.downloaded_urls = st.downloaded_urls ++ [url] ∧
     (download_pdf env st url).2.history = st.history ++ [url] ∧
     ∃ r, env.fetch_doc url = some r ∧
       (download_pdf env st url).2.downloaded_hashes =
         st.downloaded_hashes ++ [env.hash_bytes r.body]) := by
  simp only [download_pdf]
  split
  · exact Or.inl ⟨rfl, rfl, rfl⟩
  · cases henv : env.fetch_doc url with
    | none => exact Or.inl ⟨rfl, rfl, rfl⟩
    | some r =>
      dsimp only
      split
      · exact Or.inl ⟨rfl, rfl, rfl⟩
      · split
        · exact Or.inl ⟨rfl, rfl, rfl⟩
        · exact Or.inr ⟨rfl, rfl, r, rfl, rfl⟩

theorem download_pdf_mono (env : ScrEnv) (st : ScrState) (url : String) :
    st.downloaded_urls ⊆ (download_pdf env st url).2.downloaded_urls := by
  rcases download_pdf_step env st url with ⟨e1, _, _⟩ | ⟨e1, _, _⟩ <;>
    rw [e1] <;> intro x hx <;> simp [hx]

theorem download_pdf_run1inv (env : ScrEnv) (cnd : List String) (st : ScrState)
    (url : String) (hinv : Run1Inv env cnd st) (hurl : url ∈ cnd) :
    Run1Inv env cnd (download_pdf env st url).2 := by
  obtain ⟨h1, h2, h3⟩ := hinv
  rcases download_pdf_step env st url with ⟨e1, e2, e3⟩ | ⟨e1, e3, r, henv, e2⟩
  · refine ⟨by rw [e1, e3, h1], ?_, ?_⟩
    · intro d hd
      rw [e2] at hd
      obtain ⟨u, hu, ru, hru, hdu⟩ := h2 d hd
      exact ⟨u, by rw [e1]; exact hu, ru, hru, hdu⟩
    · intro u hu
      rw [e1] at hu
      exact h3 u hu
  · refine ⟨by rw [e1, e3, h1], ?_, ?_⟩
    · intro d hd
      rw [e2] at hd
      simp only [List.mem_append, List.mem_singleton] at hd
      rcases hd with hd | hd
      · obtain ⟨u, hu, ru, hru, hdu⟩ := h2 d hd
        exact ⟨u, by rw [e1]; simp [hu], ru, hru, hdu⟩
      · exact ⟨url, by rw [e1]; simp, r, henv, hd⟩
    · intro u hu
      rw [e1] at hu
      simp only [List.mem_append, List.mem_singleton] at hu
      rcases hu with hu | hu
      · exact h3 u hu
      · rw [hu]; exact hurl

/-- Key step: a candidate whose fetch succeeds with status 200, offered to
download_pdf under the run invariant and global digest distinctness, ends
up recorded in the URL set. -/
theorem download_pdf_records (env : ScrEnv) (cnd : List String) (st : ScrState)
    (url : String) (r : FetchResp)
    (henv : env.fetch_doc url = some r) (hstatus : r.status = 200)
    (hinv : Run1Inv env cnd st) (hurl : url ∈ cnd)
    (hc2 : ∀ l1 ∈ cnd, ∀ l2 ∈ cnd, ∀ r1 r2 : FetchResp,
      env.fetch_doc l1 = some r1 → env.fetch_doc l2 = some r2 →
      env.hash_bytes r1.body = env.hash_bytes r2.body → l1 = l2) :
    url ∈ (download_pdf env st url).2.downloaded_urls := by
  by_cases hmem : st.downloaded_urls.contains url = true
  · exact download_pdf_mono env st url (by simpa using hmem)
  · have hnodup : ¬ st.downloaded_hashes.contains (env.hash_bytes r.body) = true := by
      intro hcon
      have hd : env.hash_bytes r.body ∈ st.downloaded_hashes := by simpa using hcon
      obtain ⟨u, hu, ru, hru, hdu⟩ := hinv.2.1 (env.hash_bytes r.body) hd
      have hueq : u = url :=
        hc2 u (hinv.2.2 u hu) url hurl ru r hru henv hdu.symm
      rw [hueq] at hu
      exact hmem (by simpa using hu)
    simp only [download_pdf, henv]
    rw [if_neg hmem, if_neg (by simp [hstatus]), if_neg hnodup]
    simp

theorem download_list_run1 (env : ScrEnv) (cnd : List String)
    (hc2 : ∀ l1 ∈ cnd, ∀ l2 ∈ cnd, ∀ r1 r2 : FetchResp,
      env.fetch_doc l1 = some r1 → env.fetch_doc l2 = some r2 →
      env.hash_bytes r1.body = env.hash_bytes r2.body → l1 = l2) :
    ∀ (ls : List String), (∀ l ∈ ls, l ∈ cnd) → ∀ acc : Nat × ScrState,
      Run1Inv env cnd acc.2 →
      Run1Inv env cnd (download_list env acc ls).2 ∧
      (∀ l ∈ ls, l ∈ (download_list env acc ls).2.downloaded_urls ∨
        env.fetch_doc l = none ∨
        ∃ r : FetchResp, env.fetch_doc l = some r ∧ r.status ≠ 200) ∧
      (∀ u ∈ acc.2.downloaded_urls, u ∈ (download_list env acc ls).2.downloaded_urls) := by
  intro ls
  induction ls with
  | nil => exact fun _ acc hinv => ⟨hinv, by simp, fun u hu => hu⟩
  | cons l ls ih =>
    intro hls acc hinv
    simp only [download_list]
    have hl : l ∈ cnd := hls l (by simp)
    have hinv2 := download_pdf_run1inv env cnd acc.2 l hinv hl
    have hrest := ih (fun x hx => hls x (by simp [hx]))
      (if (download_pdf env acc.2 l).1 then acc.1 + 1 else acc.1,
        (download_pdf env acc.2 l).2) hinv2
    refine ⟨hrest.1, ?_, ?_⟩
    · intro x hx
      rcases (by simpa using hx : x = l ∨ x ∈ ls) with rfl | hx2
      · cases hfd : env.fetch_doc x with
        | none => exact Or.inr (Or.inl rfl)
        | some r =>
          by_cases hst : r.status = 200
          · exact Or.inl (hrest.2.2 x
              (download_pdf_records env cnd acc.2 x r hfd hst hinv hl hc2))
          · exact Or.inr (Or.inr ⟨r, rfl, hst⟩)
      · exact hrest.2.1 x hx2
    · intro u hu
      exact hrest.2.2 u (download_pdf_mono env acc.2 l hu)

/-- A link of a 200 page of the page list is among the run's candidates. -/
theorem mem_candidates (env : ScrEnv) :
    ∀ (pages : List String) (p : String), p ∈ pages →
      ∀ (status : Nat) (links : List String),
        env.fetch_page p = some (status, links) → status = 200 →
        ∀ l ∈ links, l ∈ candidates env pages := by
  intro pages
  induction pages with
  | nil => simp
  | cons q qs ih =>
    intro p hp status links henv h200 l hl
    simp only [candidates]
    rcases (by simpa using hp : p = q ∨ p ∈ qs) with rfl | hp2
    · simp only [henv]
      rw [if_pos h200]
      exact List.mem_append_left _ hl
    · cases hq : env.fetch_page q with
      | none => exact ih p hp2 status links henv h200 l hl
      | some pr =>
        rcases pr with ⟨s2, ls2⟩
        dsimp only
        by_cases h2 : s2 = 200
        · rw [if_pos h2]
          exact List.mem_append_right _ (ih p hp2 status links henv h200 l hl)
        · rw [if_neg h2]
          exact ih p hp2 status links henv h200 l hl

theorem scrape_pages_run1 (env : ScrEnv) (pages : List String)
    (hc2 : ∀ l1 ∈ candidates env pages, ∀ l2 ∈ candidates env pages, ∀ r1 r2 : FetchResp,
      env.fetch_doc l1 = some r1 → env.fetch_doc l2 = some r2 →
      env.hash_bytes r1.body = env.hash_bytes r2.body → l1 = l2) :
    ∀ (ps : List String), (∀ p ∈ ps, p ∈ pages) → ∀ acc : Nat × ScrState,
      Run1Inv env (candidates env pages) acc.2 →
      Run1Inv env (candidates env pages) (scrape_pages env acc ps).2 ∧
      (∀ l ∈ candidates env ps, l ∈ (scrape_pages env acc ps).2.downloaded_urls ∨
        env.fetch_doc l = none ∨
        ∃ r : FetchResp, env.fetch_doc l = some r ∧ r.status ≠ 200) ∧
      (∀ u ∈ acc.2.downloaded_urls, u ∈ (scrape_pages env acc ps).2.downloaded_urls) := by
  intro ps
  induction ps with
  | nil => exact fun _ acc hinv => ⟨hinv, by simp [candidates], fun u hu => hu⟩
  | cons p ps ih =>
    intro hps acc hinv
    simp only [scrape_pages]
    have hpages : p ∈ pages := hps p (by simp)
    cases hpage : env.fetch_page p with
    | none =>
      have heq : scrape_page env acc.2 p = (0, acc.2) := by
        simp only [scrape_page, hpage]
      rw [heq]
      have hrest := ih (fun x hx => hps x (by simp [hx])) (acc.1 + 0, acc.2) hinv
      refine ⟨hrest.1, ?_, hrest.2.2⟩
      intro l hl
      simp only [candidates, hpage] at hl
      exact hrest.2.1 l hl
    | some pr =>
      rcases pr with ⟨s, links⟩
      by_cases h200 : s = 200
      · have heq : scrape_page env acc.2 p = download_list env (0, acc.2) links := by
          simp only [scrape_page, hpage]
          rw [if_neg (by simp [h200])]
        rw [heq]
        have hlinks : ∀ l ∈ links, l ∈ candidates env pages :=
          mem_candidates env pages p hpages s links hpage h200
        have hdl := download_list_run1 env (candidates env pages) hc2 links hlinks
          (0, acc.2) hinv
        have hrest := ih (fun x hx => hps x (by simp [hx]))
          (acc.1 + (download_list env (0, acc.2) links).1,
            (download_list env (0, acc.2) links).2) hdl.1
        refine ⟨hrest.1, ?_, ?_⟩
        · intro l hl
          simp only [candidates, hpage] at hl
          rw [if_pos h200] at hl
          rcases List.mem_append.mp hl with hl2 | hl2
          · rcases hdl.2.1 l hl2 with hin | hfail
            · exact Or.inl (hrest.2.2 l hin)
            · exact Or.inr hfail
          · exact hrest.2.1 l hl2
        · intro u hu
          exact hrest.2.2 u (hdl.2.2 u hu)
      · have heq : scrape_page env acc.2 p = (0, acc.2) := by
          simp only [scrape_page, hpage]
          rw [if_pos h200]
        rw [heq]
        have hrest := ih (fun x hx => hps x (by simp [hx])) (acc.1 + 0, acc.2) hinv
        refine ⟨hrest.1, ?_, hrest.2.2⟩
        intro l hl
        simp only [candidates, hpage] at hl
        rw [if_neg h200] at hl
        exact hrest.2.1 l hl

/-- A download offered a URL already in the set, or whose fetch fails
(exception or non-200 status), is a no-op. -/
theorem download_pdf_noop (env : ScrEnv) (st : ScrState) (l : String)
    (h : l ∈ st.downloaded_urls ∨ env.fetch_doc l = none ∨
      ∃ r : FetchResp, env.fetch_doc l = some r ∧ r.status ≠ 200) :
    download_pdf env st l = (false, st) := by
  simp only [download_pdf]
  split
  · rfl
  · rename_i hnc
    rcases h with hmem | hnone | ⟨r, hr, hst⟩
    · exact absurd (by simpa using hmem) hnc
    · simp only [hnone]
    · simp only [hr]
      rw [if_pos hst]

theorem download_list_skip (env : ScrEnv) :
    ∀ (ls : List String) (acc : Nat × ScrState),
      (∀ l ∈ ls, l ∈ acc.2.downloaded_urls ∨ env.fetch_doc l = none ∨
        ∃ r : FetchResp, env.fetch_doc l = some r ∧ r.status ≠ 200) →
      download_list env acc ls = acc := by
  intro ls
  induction ls with
  | nil => exact fun acc _ => rfl
  | cons l ls ih =>
    intro acc h
    simp only [download_list]
    have hdl : download_pdf env acc.2 l = (false, acc.2) :=
      download_pdf_noop env acc.2 l (h l (by simp))
    rw [hdl]
    show download_list env (acc.1, acc.2) ls = acc
    exact ih (acc.1, acc.2) (fun x hx => h x (by simp [hx]))

/-- When every candidate of the remaining page list is already recorded
or fails its fetch, the page loop is the identity: zero new documents. -/
theorem scrape_pages_skip (env : ScrEnv) :
    ∀ (ps : List String) (acc : Nat × ScrState),
      (∀ l ∈ candidates env ps, l ∈ acc.2.downloaded_urls ∨ env.fetch_doc l = none ∨
        ∃ r : FetchResp, env.fetch_doc l = some r ∧ r.status ≠ 200) →
      scrape_pages env acc ps = acc := by
  intro ps
  induction ps with
  | nil => exact fun acc _ => rfl
  | cons p ps ih =>
    intro acc h
    simp only [scrape_pages]
    cases hpage : env.fetch_page p with
    | none =>
      have heq : scrape_page env acc.2 p = (0, acc.2) := by
        simp only [scrape_page, hpage]
      rw [heq]
      show scrape_pages env (acc.1 + 0, acc.2) ps = acc
      rw [Nat.add_zero]
      refine ih (acc.1, acc.2) ?_
      intro l hl
      refine h l ?_
      simp only [candidates, hpage]
      exact hl
    | some pr =>
      rcases pr with ⟨s, links⟩
      by_cases h200 : s = 200
      · have hlinks : ∀ l ∈ links, l ∈ acc.2.downloaded_urls ∨
            env.fetch_doc l = none ∨
            ∃ r : FetchResp, env.fetch_doc l = some r ∧ r.status ≠ 200 := by
          intro l hl
          refine h l ?_
          simp only [candidates, hpage]
          rw [if_pos h200]
          exact List.mem_append_left _ hl
        have heq : scrape_page env acc.2 p = (0, acc.2) := by
          simp only [scrape_page, hpage]
          rw [if_neg (by simp [h200])]
          exact download_list_skip env links (0, acc.2) hlinks
        rw [heq]
        show scrape_pages env (acc.1 + 0, acc.2) ps = acc
        rw [Nat.add_zero]
        refine ih (acc.1, acc.2) ?_
        intro l hl
        refine h l ?_
        simp only [candidates, hpage]
        rw [if_pos h200]
        exact List.mem_append_right _ hl
      · have heq : scrape_page env acc.2 p = (0, acc.2) := by
          simp only [scrape_page, hpage]
          rw [if_pos h200]
        rw [heq]
        show scrape_pages env (acc.1 + 0, acc.2) ps = acc
        rw [Nat.add_zero]
        refine ih (acc.1, acc.2) ?_
        intro l hl
        refine h l ?_
        simp only [candidates, hpage]
        rw [if_neg h200]
        exact hl

/-- Environment exhibiting duplicate content under two URLs: page P links
to u1 and u2, whose bodies carry the same digest. -/
def envC : ScrEnv :=
  ⟨fun u => if u = "u1" ∨ u = "u2" then some ⟨200, some "a.pdf", [7]⟩ else none,
    fun p => if p = "P" then some (200, ["u1", "u2"]) else none,
    fun b => b.length, fun _ => "", fun _ => "h"⟩

/-- C3 counterexample: the first run stores u1 and discards u2 as
duplicate content WITHOUT recording u2 in the history; the second run,
whose content-hash set starts empty, therefore stores u2 as a new
document: the second run's count is 1, not 0. -/
theorem c3_counterexample :
    (scrape_multiple_pages envC
      (init_scraper (scrape_multiple_pages envC (init_scraper [] []) ["P"]).2.history
        (scrape_multiple_pages envC (init_scraper [] []) ["P"]).2.files) ["P"]).1 = 1 := by
  decide

/-- C3 amended: rerunning the acquirer on the same page list over the
history file of a first run (started with empty history) stores zero new
documents, PROVIDED no two distinct candidates carry content with the
same digest — the first run then records every successfully fetched
candidate in its history, and a candidate whose fetch fails (exception or
non-200) fails identically on the second run. -/
theorem c3_second_run_zero (env : ScrEnv) (pages : List String)
    (files0 : List (String × List Nat))
    (hc2 : ∀ l1 ∈ candidates env pages, ∀ l2 ∈ candidates env pages, ∀ r1 r2 : FetchResp,
      env.fetch_doc l1 = some r1 → env.fetch_doc l2 = some r2 →
      env.hash_bytes r1.body = env.hash_bytes r2.body → l1 = l2) :
    (scrape_multiple_pages env
      (init_scraper (scrape_multiple_pages env (init_scraper [] files0) pages).2.history
        (scrape_multiple_pages env (init_scraper [] files0) pages).2.files) pages).1 = 0 := by
  have hinv0 : Run1Inv env (candidates env pages) (0, init_scraper [] files0).2 :=
    ⟨rfl, fun d hd => absurd hd (List.not_mem_nil d), fun u hu => absurd hu (List.not_mem_nil u)⟩
  have hrun1 := scrape_pages_run1 env pages hc2 pages (fun p hp => hp)
    (0, init_scraper [] files0) hinv0
  obtain ⟨⟨hhist, -, -⟩, hcand, -⟩ := hrun1
  have hsub : ∀ l ∈ candidates env pages,
      l ∈ (init_scraper (scrape_multiple_pages env (init_scraper [] files0) pages).2.history
        (scrape_multiple_pages env (init_scraper [] files0) pages).2.files).downloaded_urls ∨
      env.fetch_doc l = none ∨
      ∃ r : FetchResp, env.fetch_doc l = some r ∧ r.status ≠ 200 := by
    intro l hl
    rcases hcand l hl with hin | hfail
    · refine Or.inl ?_
      show l ∈ (scrape_pages env (0, init_scraper [] files0) pages).2.history
      rw [← hhist]
      exact hin
    · exact Or.inr hfail
  show (scrape_pages env (0, init_scraper
    (scrape_multiple_pages env (init_scraper [] files0) pages).2.history
    (scrape_multiple_pages env (init_scraper [] files0) pages).2.files) pages).1 = 0
  rw [scrape_pages_skip env pages (0, init_scraper
    (scrape_multiple_pages env (init_scraper [] files0) pages).2.history
    (scrape_multiple_pages env (init_scraper [] files0) pages).2.files) hsub]

/-- Environment in which the two candidates carry bodies with distinct
digests: the hypotheses of the amended C3 hold. -/
def envW : ScrEnv :=
  ⟨fun u => if u = "u1" then some ⟨200, some "a.pdf", [7]⟩
    else if u = "u2" then some ⟨200, some "b.pdf", [7, 7]⟩ else none,
    fun p => if p = "P" then some (200, ["u1", "u2"]) else none,
    fun b => b.length, fun _ => "", fun _ => "h"⟩

theorem c3_witness :
    (scrape_multiple_pages envW
      (init_scraper (scrape_multiple_pages envW (init_scraper [] []) ["P"]).2.history
        (scrape_multiple_pages envW (init_scraper [] []) ["P"]).2.files) ["P"]).1 = 0 := by
  have hc : candidates envW ["P"] = ["u1", "u2"] := by decide
  refine c3_second_run_zero envW ["P"] [] ?_
  · intro l1 h1 l2 h2 r1 r2 e1 e2 ehash
    rw [hc] at h1 h2
    have d1 : envW.fetch_doc "u1" = some ⟨200, some "a.pdf", [7]⟩ := by decide
    have d2 : envW.fetch_doc "u2" = some ⟨200, some "b.pdf", [7, 7]⟩ := by decide
    rcases (by simpa using h1 : l1 = "u1" ∨ l1 = "u2") with rfl | rfl <;>
      rcases (by simpa using h2 : l2 = "u1" ∨ l2 = "u2") with rfl | rfl
    · rfl
    · exfalso
      rw [d1] at e1
      rw [d2] at e2
      have hr1 := Option.some.inj e1
      have hr2 := Option.some.inj e2
      rw [← hr1, ← hr2] at ehash
      simp [envW] at ehash
    · exfalso
      rw [d2] at e1
      rw [d1] at e2
      have hr1 := Option.some.inj e1
      have hr2 := Option.some.inj e2
      rw [← hr1, ← hr2] at ehash
      simp [envW] at ehash
    · rfl

/-! ### History-file persistence at the character level (claim C10)

save_url_to_history appends url + a newline to download_history.txt;
PDFScraper.__init__ rebuilds the in-memory set as
set(line.strip() for line in f.readlines()).  The file is modelled as its
character list; splitLines is Python readlines (with the terminators
dropped — line.strip() removes them anyway) and pyStrip is str.strip over
the ASCII whitespace the sources can encounter. -/

def pyIsSpace (c : Char) : Bool :=
  c = ' ' ∨ c = '\t' ∨ c = '\n' ∨ c = '\r' ∨ c = '\x0b' ∨ c = '\x0c'

/-- Python str.strip(): drop whitespace from both ends. -/
def pyStrip (l : List Char) : List Char :=
  ((l.dropWhile pyIsSpace).reverse.dropWhile pyIsSpace).reverse

/-- The lines of a file, Python readlines-style: split after every
newline; a last terminator-free chunk forms a final line; the terminators
themselves are dropped. -/
def splitLines : List Char → List (List Char)
  | [] => []
  | c :: rest =>
    if c = '\n' then [] :: splitLines rest
    else
      match splitLines rest with
      | [] => [[c]]
      | l :: ls => (c :: l) :: ls

/-- PDFScraper.save_url_to_history: append url + a newline. -/
def save_url_to_history (file url : List Char) : List Char :=
  file ++ url ++ ['\n']

/-- The in-memory Download History a fresh PDFScraper builds from the
history file. -/
def load_history (file : List Char) : List (List Char) :=
  (splitLines file).map pyStrip

theorem splitLines_ne_nil (l : List Char) (h : l ≠ []) : splitLines l ≠ [] := by
  cases l with
  | nil => exact absurd rfl h
  | cons c rest =>
    simp only [splitLines]
    split
    · simp
    · split <;> simp

theorem splitLines_cons_nl (rest : List Char) :
    splitLines ('\n' :: rest) = [] :: splitLines rest := by
  simp [splitLines]

theorem splitLines_cons_ne (c : Char) (hc : ¬ c = '\n') (rest : List Char) :
    splitLines (c :: rest) =
      match splitLines rest with
      | [] => [[c]]
      | l :: ls => (c :: l) :: ls := by
  simp [splitLines, hc]

theorem splitLines_append (s t : List Char)
    (h : s = [] ∨ ∃ s2, s = s2 ++ ['\n']) :
    splitLines (s ++ t) = splitLines s ++ splitLines t := by
  induction s with
  | nil => simp [splitLines]
  | cons c s2 ih =>
    rcases h with h | ⟨s3, h3⟩
    · exact absurd h (by simp)
    · by_cases hs2 : s2 = []
      · subst hs2
        have hc : c = '\n' := by
          cases s3 with
          | nil => simpa using congrArg (fun l => l.head?) h3
          | cons a s4 =>
            exfalso
            have := congrArg List.length h3
            simp at this
        subst hc
        rw [List.cons_append, splitLines_cons_nl, splitLines_cons_nl]
        simp [splitLines]
      · obtain ⟨s4, rfl⟩ : ∃ s4, s2 = s4 ++ ['\n'] := by
          cases s3 with
          | nil =>
            exfalso
            have := congrArg List.length h3
            simp at this
            exact hs2 this
          | cons a s4 =>
            refine ⟨s4, ?_⟩
            have := (List.cons.injEq .. ▸ h3).2
            simpa using this
        have ihr := ih (Or.inr ⟨s4, rfl⟩)
        by_cases hc : c = '\n'
        · subst hc
          rw [List.cons_append, splitLines_cons_nl, splitLines_cons_nl, ihr]
          rfl
        · have hnn := splitLines_ne_nil (s4 ++ ['\n']) (by simp)
          cases hsl : splitLines (s4 ++ ['\n']) with
          | nil => exact absurd hsl hnn
          | cons l ls =>
            rw [List.cons_append, splitLines_cons_ne c hc ((s4 ++ ['\n']) ++ t),
              splitLines_cons_ne c hc (s4 ++ ['\n']), ihr, hsl, List.cons_append]
            rfl

theorem splitLines_single (u : List Char) (h : '\n' ∉ u) :
    splitLines (u ++ ['\n']) = [u] := by
  induction u with
  | nil => simp [splitLines]
  | cons c u2 ih =>
    have hc : ¬ c = '\n' := fun hcon => h (by simp [hcon])
    have ihr := ih (fun hcon => h (by simp [hcon]))
    rw [List.cons_append, splitLines_cons_ne c hc, ihr]

/-- C10 confirmed: appending a URL (no newline, no surrounding whitespace)
to a well-formed history file and re-initializing the scraper yields a
Download History containing that URL. -/
theorem c10_history_roundtrip (file u : List Char)
    (_hne : u ≠ []) (hnl : '\n' ∉ u) (hstrip : pyStrip u = u)
    (hfile : file = [] ∨ ∃ f2, file = f2 ++ ['\n']) :
    u ∈ load_history (save_url_to_history file u) := by
  unfold load_history save_url_to_history
  rw [List.append_assoc, splitLines_append file (u ++ ['\n']) hfile,
    splitLines_single u hnl]
  simp [hstrip]

theorem c10_witness :
    "http://a".data ∈ load_history (save_url_to_history [] "http://a".data) :=
  c10_history_roundtrip [] "http://a".data (by decide) (by decide) (by decide)
    (Or.inl rfl)

end NyayaSetu
